import Mathlib

/-!
# Verification of `keybd_event`'s `ir` package (`src/ir/ir.go`)

A shallow embedding of the intermediate-representation codec of the
repository: the key-code constants, the `stringMap` alphabet table, the
encoder `ToString` and the decoder `ToKeys`, each translated directly
from the Go source.

Modelling choices:
* Go `int` keys become `Int`; Go strings become Lean `String`
  (Go `range` over a string iterates runes, which matches `String.data`).
* A Go function returning `(T, error)` becomes `Except E T`; the error
  payload records what the error message identifies (the offending key
  code for `ToString`, the offending character for `ToKeys`).  The Go
  functions return the zero value (`""` resp. `nil`) with every error,
  so `Except.error` carrying no partial result is faithful.
* `strings.EqualFold` and `strings.ToUpper` are modelled with Lean's
  ASCII `String.toLower`/`String.toUpper`; every glyph in the table is
  ASCII, where the two agree with Go's Unicode versions.
* Go's `range` over the `stringMap` map visits entries in unspecified
  order; the embedding fixes the source-text order.  Every claim proved
  below either does not depend on the order or carries a uniqueness
  hypothesis that makes any order give the same result.
-/

namespace KeybdIR

/-! ## Key-code constants (src/ir/ir.go lines 14-130) -/

def XK_Control      : Int := 0x3B
def XK_RightShift   : Int := 0x3C
def XK_RightControl : Int := 0x3E
def XK_Command      : Int := 0x37
def XK_Shift        : Int := 0x38
def XK_ALT          : Int := 0x383

def XK_A              : Int := 0x00
def XK_S              : Int := 0x01
def XK_D              : Int := 0x02
def XK_F              : Int := 0x03
def XK_H              : Int := 0x04
def XK_G              : Int := 0x05
def XK_Z              : Int := 0x06
def XK_X              : Int := 0x07
def XK_C              : Int := 0x08
def XK_V              : Int := 0x09
def XK_B              : Int := 0x0B
def XK_Q              : Int := 0x0C
def XK_W              : Int := 0x0D
def XK_E              : Int := 0x0E
def XK_R              : Int := 0x0F
def XK_Y              : Int := 0x10
def XK_T              : Int := 0x11
def XK_1              : Int := 0x12
def XK_2              : Int := 0x13
def XK_3              : Int := 0x14
def XK_4              : Int := 0x15
def XK_6              : Int := 0x16
def XK_5              : Int := 0x17
def XK_EQUAL          : Int := 0x18
def XK_9              : Int := 0x19
def XK_7              : Int := 0x1A
def XK_MINUS          : Int := 0x1B
def XK_8              : Int := 0x1C
def XK_0              : Int := 0x1D
def XK_RightBracket   : Int := 0x1E
def XK_O              : Int := 0x1F
def XK_U              : Int := 0x20
def XK_LeftBracket    : Int := 0x21
def XK_I              : Int := 0x22
def XK_P              : Int := 0x23
def XK_L              : Int := 0x25
def XK_J              : Int := 0x26
def XK_Quote          : Int := 0x27
def XK_K              : Int := 0x28
def XK_SEMICOLON      : Int := 0x29
def XK_BACKSLASH      : Int := 0x2A
def XK_COMMA          : Int := 0x2B
def XK_SLASH          : Int := 0x2C
def XK_N              : Int := 0x2D
def XK_M              : Int := 0x2E
def XK_Period         : Int := 0x2F
def XK_GRAVE          : Int := 0x32
def XK_KeypadDecimal  : Int := 0x41
def XK_KeypadMultiply : Int := 0x43
def XK_KeypadPlus     : Int := 0x45
def XK_KeypadClear    : Int := 0x47
def XK_KeypadDivide   : Int := 0x4B
def XK_KeypadEnter    : Int := 0x4C
def XK_KeypadMinus    : Int := 0x4E
def XK_KeypadEquals   : Int := 0x51
def XK_Keypad0        : Int := 0x52
def XK_Keypad1        : Int := 0x53
def XK_Keypad2        : Int := 0x54
def XK_Keypad3        : Int := 0x55
def XK_Keypad4        : Int := 0x56
def XK_Keypad5        : Int := 0x57
def XK_Keypad6        : Int := 0x58
def XK_Keypad7        : Int := 0x59
def XK_Keypad8        : Int := 0x5B
def XK_Keypad9        : Int := 0x5C

def XK_TAB   : Int := 0x30
def XK_SPACE : Int := 0x31

/-! ## The alphabet table (src/ir/ir.go lines 133-202)

`stringMap` is a Go map literal with (necessarily distinct) constant
keys; the embedding keeps the entries in source order as an association
list. -/

def stringMap : List (Int × String) :=
  [(XK_A, "a"), (XK_S, "s"), (XK_D, "d"), (XK_F, "f"), (XK_H, "h"),
   (XK_G, "g"), (XK_Z, "z"), (XK_X, "x"), (XK_C, "c"), (XK_V, "v"),
   (XK_B, "b"), (XK_Q, "q"), (XK_W, "w"), (XK_E, "e"), (XK_R, "r"),
   (XK_Y, "y"), (XK_T, "t"), (XK_1, "1"), (XK_2, "2"), (XK_3, "3"),
   (XK_4, "4"), (XK_6, "6"), (XK_5, "5"), (XK_EQUAL, "="), (XK_9, "9"),
   (XK_7, "7"), (XK_MINUS, "-"), (XK_8, "8"), (XK_0, "0"),
   (XK_RightBracket, "]"), (XK_O, "o"), (XK_U, "u"),
   (XK_LeftBracket, "["), (XK_I, "i"), (XK_P, "p"), (XK_L, "l"),
   (XK_J, "j"), (XK_Quote, "\x27"), (XK_K, "k"), (XK_SEMICOLON, ";"),
   (XK_BACKSLASH, "\\"), (XK_COMMA, ","), (XK_SLASH, "/"),
   (XK_N, "n"), (XK_M, "m"), (XK_Period, "."), (XK_GRAVE, "\x60"),
   (XK_KeypadDecimal, "."), (XK_KeypadMultiply, "*"),
   (XK_KeypadPlus, "+"), (XK_KeypadClear, ""), (XK_KeypadDivide, "/"),
   (XK_KeypadEnter, ""), (XK_KeypadMinus, "-"), (XK_KeypadEquals, "="),
   (XK_Keypad0, "0"), (XK_Keypad1, "1"), (XK_Keypad2, "2"),
   (XK_Keypad3, "3"), (XK_Keypad4, "4"), (XK_Keypad5, "5"),
   (XK_Keypad6, "6"), (XK_Keypad7, "7"), (XK_Keypad8, "8"),
   (XK_Keypad9, "9"), (XK_TAB, "\t"), (XK_SPACE, " ")]

/-- The Go map read `ks, ok := stringMap[key]` (keys are distinct, so
first-match lookup on the association list agrees with the Go map). -/
def lookup (key : Int) : Option String :=
  (stringMap.find? (fun p => p.1 == key)).map (fun p => p.2)

/-- `strings.EqualFold`, restricted to the ASCII fold (every table glyph
is ASCII, where Go's Unicode simple fold and the ASCII `Char.toLower`
agree).  Stated over the character lists of the two strings. -/
def equalFold (a b : String) : Bool :=
  a.data.map Char.toLower == b.data.map Char.toLower

/-- `strings.ToUpper`, restricted likewise to the ASCII mapping. -/
def goToUpper (s : String) : String := String.mk (s.data.map Char.toUpper)

/-! ## The encoder `ToString` (src/ir/ir.go lines 205-236)

The Go loop appends to a `bytes.Buffer` (whose `WriteString` never
fails) and returns `("", err)` on the first failed table lookup.  The
expression-less `switch` checks its cases in source order — `is.shift`,
then the shift keys, then the other modifiers — and falls back to
`default`. -/

def toStringAux (shift : Bool) : List Int → Except Int String
  | [] => .ok ""
  | key :: rest =>
    match lookup key with
    | none => .error key
    | some ks =>
      if shift then
        (toStringAux false rest).map (fun t => goToUpper ks ++ t)
      else if key == XK_Shift || key == XK_RightShift then
        toStringAux true rest
      else if key == XK_ALT || key == XK_Control ||
          key == XK_RightControl || key == XK_Command then
        toStringAux shift rest
      else
        (toStringAux shift rest).map (fun t => ks ++ t)

def ToString (keys : List Int) : Except Int String := toStringAux false keys

/-! ## The decoder `ToKeys` (src/ir/ir.go lines 240-261) -/

/-- The inner `for k, ks := range stringMap` search with `break` on the
first entry whose glyph `EqualFold`-matches the one-rune string of `v`.
(Go map order is unspecified; source order is fixed here.) -/
def findEntry (c : Char) : Option Int :=
  (stringMap.find? (fun p => equalFold p.2 (String.singleton c))).map
    (fun p => p.1)

def toKeysAux : List Char → Except Char (List Int)
  | [] => .ok []
  | c :: cs =>
    match findEntry c with
    | none => .error c
    | some key =>
      (toKeysAux cs).map
        (fun ks => (if c.isUpper then [XK_Shift, key] else [key]) ++ ks)

def ToKeys (s : String) : Except Char (List Int) := toKeysAux s.data

/-! ## Spec-side notions used to state the decoder claims -/

/-- Code `k` is a table entry whose glyph matches the character `c`
case-insensitively (the decoder's match condition). -/
def matchedKey (c : Char) (k : Int) : Prop :=
  ∃ g, (k, g) ∈ stringMap ∧ equalFold g (String.singleton c) = true

/-- Relation between an input character list and an output code list in
which each character contributes its matched code, preceded by a Shift
code exactly when the character is upper-case.  Since `matchedKey`
forces a table entry and no Shift code is in the table, every Shift code
in the output sits immediately before the matched code of an upper-case
character and nowhere else. -/
inductive ShiftPlaced : List Char → List Int → Prop
  | nil : ShiftPlaced [] []
  | upper {c : Char} {k : Int} {cs : List Char} {ks : List Int} :
      c.isUpper = true → matchedKey c k → ShiftPlaced cs ks →
      ShiftPlaced (c :: cs) (XK_Shift :: k :: ks)
  | lower {c : Char} {k : Int} {cs : List Char} {ks : List Int} :
      c.isUpper = false → matchedKey c k → ShiftPlaced cs ks →
      ShiftPlaced (c :: cs) (k :: ks)

end KeybdIR


namespace KeybdIR

/-! ## Helper lemmas -/

/-- A successful table lookup exhibits a table entry. -/
lemma mem_of_lookup {k : Int} {g : String} (h : lookup k = some g) :
    (k, g) ∈ stringMap := by
  unfold lookup at h
  cases hf : stringMap.find? (fun p => p.1 == k) with
  | none => rw [hf] at h; cases h
  | some m =>
    rw [hf, Option.map_some'] at h
    have hmem := List.mem_of_find?_eq_some hf
    have hkey := List.find?_some hf
    have hk : m.1 = k := by simpa using hkey
    have hg : m.2 = g := by simpa using h
    have : m = (k, g) := by rw [← hk, ← hg]
    rwa [this] at hmem

/-- None of the six modifier codes has a table entry, so a successful
lookup rules them all out. -/
lemma lookup_not_modifier {k : Int} {g : String} (h : lookup k = some g) :
    k ≠ XK_Shift ∧ k ≠ XK_RightShift ∧ k ≠ XK_ALT ∧ k ≠ XK_Control ∧
      k ≠ XK_RightControl ∧ k ≠ XK_Command := by
  refine ⟨?_, ?_, ?_, ?_, ?_, ?_⟩ <;> rintro rfl <;>
    exact Option.noConfusion (show (none : Option String) = some g from h)

/-- Stepping the encoder over a code that is in the table (hence not a
modifier) appends its glyph and keeps the shift flag clear. -/
lemma toStringAux_cons_ok {k : Int} {g : String} {rest : List Int}
    (h : lookup k = some g) :
    toStringAux false (k :: rest) =
      (toStringAux false rest).map (fun t => g ++ t) := by
  obtain ⟨h1, h2, h3, h4, h5, h6⟩ := lookup_not_modifier h
  simp [toStringAux, h, h1, h2, h3, h4, h5, h6]

/-- Inversion of a successful decoder step. -/
lemma toKeysAux_cons_ok {c : Char} {cs : List Char} {ks : List Int}
    (h : toKeysAux (c :: cs) = .ok ks) :
    ∃ k ks', findEntry c = some k ∧ toKeysAux cs = .ok ks' ∧
      ks = (if c.isUpper then [XK_Shift, k] else [k]) ++ ks' := by
  simp only [toKeysAux] at h
  cases hf : findEntry c with
  | none => rw [hf] at h; cases h
  | some k =>
    rw [hf] at h
    cases hr : toKeysAux cs with
    | error e => rw [hr] at h; simp [Except.map] at h
    | ok ks' =>
      rw [hr] at h
      refine ⟨k, ks', rfl, rfl, ?_⟩
      simpa [Except.map] using h.symm

/-- Every glyph in the table is empty or a single non-upper-case
character. -/
lemma table_glyphs :
    ∀ p ∈ stringMap, p.2.data.length ≤ 1 ∧ ∀ c ∈ p.2.data, c.isUpper = false := by
  decide

/-- A non-empty table glyph is the string of a single lower-case-or-symbol
character. -/
lemma glyph_singleton {k : Int} {g : String} (hmem : (k, g) ∈ stringMap)
    (hne : g ≠ "") : ∃ c, g = String.singleton c ∧ c.isUpper = false := by
  obtain ⟨hlen, hup⟩ := table_glyphs (k, g) hmem
  cases hd : g.data with
  | nil => exact absurd (String.ext hd) hne
  | cons c tail =>
    cases tail with
    | nil =>
      refine ⟨c, String.ext (by rw [hd]; rfl),
        hup c (by rw [hd]; exact List.mem_cons_self c [])⟩
    | cons d t2 => rw [hd] at hlen; simp at hlen

/-- When every table entry matching a character has key `k`, the decoder
search finds `k` whatever order the entries are visited in. -/
lemma findEntry_eq_of_unique {c : Char} {k : Int} {g : String}
    (hmem : (k, g) ∈ stringMap) (hg : equalFold g (String.singleton c) = true)
    (huniq : ∀ p ∈ stringMap,
      equalFold p.2 (String.singleton c) = true → p.1 = k) :
    findEntry c = some k := by
  unfold findEntry
  have hsome :
      (stringMap.find? fun p => equalFold p.2 (String.singleton c)).isSome := by
    rw [List.find?_isSome]
    exact ⟨(k, g), hmem, hg⟩
  obtain ⟨m, hm⟩ := Option.isSome_iff_exists.mp hsome
  rw [hm, Option.map_some']
  have h1 := List.find?_some hm
  exact congrArg some (huniq m (List.mem_of_find?_eq_some hm) h1)

/-- A successful decoder search exhibits a matching table entry. -/
lemma matched_of_findEntry {c : Char} {k : Int} (h : findEntry c = some k) :
    ∃ g, (k, g) ∈ stringMap ∧ equalFold g (String.singleton c) = true := by
  unfold findEntry at h
  cases hf : stringMap.find? (fun p => equalFold p.2 (String.singleton c)) with
  | none => rw [hf] at h; cases h
  | some m =>
    rw [hf, Option.map_some'] at h
    have hk : m.1 = k := by simpa using h
    have hmem := List.mem_of_find?_eq_some hf
    have hp := List.find?_some hf
    exact ⟨m.2, by rw [← hk]; exact hmem, hp⟩

end KeybdIR

namespace KeybdIR

/-! ## Claims -/

/-- C1: the claim says `Encode([Shift, XK_A])` returns `"A"` and
`Encode([XK_A])` returns `"a"`.  On the code the second half holds, but
the first fails: `XK_Shift` has no `stringMap` entry and the table
lookup precedes the switch, so the switch case that would set the
pending-shift flag is unreachable and the call errors on `XK_Shift`. -/
theorem encode_shift_pair_errors :
    ToString [XK_Shift, XK_A] = .error XK_Shift ∧ ToString [XK_A] = .ok "a" :=
  ⟨rfl, rfl⟩

/-- C3: for every code with a table entry, encoding the one-element
sequence returns exactly the table glyph (also when the glyph is the
empty string). -/
theorem encode_single_code (k : Int) (g : String) (h : lookup k = some g) :
    ToString [k] = .ok g := by
  show toStringAux false [k] = .ok g
  rw [toStringAux_cons_ok h]
  simp [toStringAux, Except.map]

/-- Witness for C3 at the code `XK_A`, and at the empty-glyph code
`XK_KeypadClear`. -/
theorem encode_single_code_witness :
    ToString [XK_A] = .ok "a" ∧ ToString [XK_KeypadClear] = .ok "" :=
  ⟨encode_single_code XK_A "a" rfl, encode_single_code XK_KeypadClear "" rfl⟩

/-- C4: when every code before `bad` has a table entry and `bad` does
not, encoding aborts with an error identifying `bad`; no partial text is
produced (the `Except.error` result carries no string). -/
theorem encode_fails_atomically (pre : List Int) (bad : Int) (post : List Int)
    (hpre : ∀ k ∈ pre, (lookup k).isSome) (hbad : lookup bad = none) :
    ToString (pre ++ bad :: post) = .error bad := by
  show toStringAux false (pre ++ bad :: post) = .error bad
  induction pre with
  | nil => simp [toStringAux, hbad]
  | cons k ks ih =>
    obtain ⟨g, hg⟩ :=
      Option.isSome_iff_exists.mp (hpre k (List.mem_cons_self k ks))
    rw [List.cons_append, toStringAux_cons_ok hg,
      ih (fun x hx => hpre x (List.mem_cons_of_mem k hx))]
    rfl

/-- Witness for C4: the unknown code `999` after the good code `XK_A`. -/
theorem encode_fails_atomically_witness :
    ToString [XK_A, 999, XK_S] = .error 999 :=
  encode_fails_atomically [XK_A] 999 [XK_S] (by decide) rfl

/-- C5: when every character before `bad` matches some table glyph
case-insensitively and `bad` matches none, decoding aborts with an error
identifying `bad`; no partial sequence is produced (the `Except.error`
result carries no list). -/
theorem decode_fails_atomically (pre : List Char) (bad : Char) (post : List Char)
    (hpre : ∀ c ∈ pre, (findEntry c).isSome) (hbad : findEntry bad = none) :
    ToKeys (String.mk (pre ++ bad :: post)) = .error bad := by
  show toKeysAux (pre ++ bad :: post) = .error bad
  induction pre with
  | nil => simp [toKeysAux, hbad]
  | cons c cs ih =>
    obtain ⟨k, hk⟩ :=
      Option.isSome_iff_exists.mp (hpre c (List.mem_cons_self c cs))
    rw [List.cons_append]
    simp only [toKeysAux, hk]
    rw [ih (fun x hx => hpre x (List.mem_cons_of_mem c hx))]
    rfl

/-- Witness for C5: the unmapped character between two mapped ones. -/
theorem decode_fails_atomically_witness :
    ToKeys (String.mk ['a', '!', 'b']) = .error '!' :=
  decode_fails_atomically ['a'] '!' ['b'] (by decide) rfl

/-- C7: the claim says `Encode([Control, XK_A])` returns `"a"` with the
modifier silently dropped.  On the code it fails: `XK_Control` has no
`stringMap` entry and the table lookup precedes the switch, so the
switch case that would drop the modifier is unreachable and the call
errors on `XK_Control`. -/
theorem encode_control_pair_errors :
    ToString [XK_Control, XK_A] = .error XK_Control := rfl

/-- C8: the claim says a trailing Shift is benign.  On the code it is
not: `XK_Shift` has no `stringMap` entry, so `Encode([XK_A, XK_Shift])`
errors on the trailing shift instead of returning `"a"`. -/
theorem encode_trailing_shift_errors :
    ToString [XK_A, XK_Shift] = .error XK_Shift := rfl

/-- C9: decoding `"Hello World"` succeeds (space is in the table) and
yields a Shift code exactly before the codes matched for `H` and `W`. -/
theorem decode_hello_world :
    ToKeys "Hello World" = .ok [XK_Shift, XK_H, XK_E, XK_L, XK_L, XK_O,
      XK_SPACE, XK_Shift, XK_W, XK_O, XK_R, XK_L, XK_D] := rfl

end KeybdIR

namespace KeybdIR

/-- C2: for every code sequence in which each code has a non-empty table
glyph that maps back uniquely under case-insensitive reverse lookup and
no code is a modifier, decoding the encoding succeeds and returns the
original sequence. -/
theorem encode_decode_roundTrip (codes : List Int)
    (h : ∀ k ∈ codes,
      (k ≠ XK_Shift ∧ k ≠ XK_RightShift ∧ k ≠ XK_ALT ∧ k ≠ XK_Control ∧
        k ≠ XK_RightControl ∧ k ≠ XK_Command) ∧
      ∃ g, lookup k = some g ∧ g ≠ "" ∧
        ∀ p ∈ stringMap, equalFold p.2 g = true → p.1 = k) :
    ∃ s, ToString codes = .ok s ∧ ToKeys s = .ok codes := by
  induction codes with
  | nil => exact ⟨"", rfl, rfl⟩
  | cons k rest ih =>
    obtain ⟨-, g, hg, hne, huniq⟩ := h k (List.mem_cons_self k rest)
    obtain ⟨s', hs1, hs2⟩ := ih (fun x hx => h x (List.mem_cons_of_mem k hx))
    have hmem : (k, g) ∈ stringMap := mem_of_lookup hg
    obtain ⟨c, hgs, hup⟩ := glyph_singleton hmem hne
    subst hgs
    refine ⟨String.singleton c ++ s', ?_, ?_⟩
    · show toStringAux false (k :: rest) = .ok (String.singleton c ++ s')
      rw [toStringAux_cons_ok hg,
        show toStringAux false rest = Except.ok s' from hs1]
      rfl
    · show toKeysAux ((String.singleton c ++ s').data) = .ok (k :: rest)
      have hdata : (String.singleton c ++ s').data = c :: s'.data := by
        rw [String.data_append]; rfl
      rw [hdata]
      have hmatch : equalFold (String.singleton c) (String.singleton c) = true := by
        simp [equalFold]
      have hfind : findEntry c = some k :=
        findEntry_eq_of_unique hmem hmatch huniq
      simp only [toKeysAux, hfind, hup]
      rw [show toKeysAux s'.data = Except.ok rest from hs2]
      rfl

/-- Witness for C2 at the collision-free codes `XK_H` and `XK_SPACE`. -/
theorem encode_decode_roundTrip_witness :
    ∃ s, ToString [XK_H, XK_SPACE] = .ok s ∧
      ToKeys s = .ok [XK_H, XK_SPACE] := by
  refine encode_decode_roundTrip [XK_H, XK_SPACE] ?_
  intro k hk
  rcases List.mem_cons.mp hk with rfl | hk
  · exact ⟨by decide, "h", rfl, by decide, by decide⟩
  rcases List.mem_cons.mp hk with rfl | hk
  · exact ⟨by decide, " ", rfl, by decide, by decide⟩
  · cases hk

/-- C6: every successful decode places a Shift code exactly before the
matched code of each upper-case character (`ShiftPlaced`); in
particular `Decode("a")` is `[XK_A]` and `Decode("A")` is
`[XK_Shift, XK_A]`. -/
theorem decode_shift_placement :
    (∀ (s : String) (keys : List Int), ToKeys s = .ok keys →
      ShiftPlaced s.data keys) ∧
    ToKeys "a" = .ok [XK_A] ∧ ToKeys "A" = .ok [XK_Shift, XK_A] := by
  refine ⟨?_, rfl, rfl⟩
  intro s keys h
  have main : ∀ cs ks, toKeysAux cs = .ok ks → ShiftPlaced cs ks := by
    intro cs
    induction cs with
    | nil =>
      intro ks h2
      simp only [toKeysAux] at h2
      cases h2
      exact ShiftPlaced.nil
    | cons c cs ih =>
      intro ks h2
      obtain ⟨k, ks', hf, hr, hks⟩ := toKeysAux_cons_ok h2
      have hm : matchedKey c k := matched_of_findEntry hf
      subst hks
      cases hu : c.isUpper with
      | true =>
        simp only [hu, if_true, List.cons_append, List.nil_append]
        exact ShiftPlaced.upper hu hm (ih ks' hr)
      | false =>
        simp only [hu, Bool.false_eq_true, if_false, List.cons_append,
          List.nil_append]
        exact ShiftPlaced.lower hu hm (ih ks' hr)
  exact main s.data keys h

/-- Witness for C6's general part at the input `"Ab"`. -/
theorem decode_shift_placement_witness :
    ShiftPlaced ("Ab".data) [XK_Shift, XK_A, XK_B] :=
  decode_shift_placement.1 "Ab" [XK_Shift, XK_A, XK_B] rfl

/-- C10: every successful decode returns one code per character plus one
Shift code per upper-case character, and decoding the empty string
succeeds with the empty sequence. -/
theorem decode_length :
    (∀ (s : String) (keys : List Int), ToKeys s = .ok keys →
      keys.length = s.data.length + s.data.countP (fun c => c.isUpper)) ∧
    ToKeys "" = .ok [] := by
  refine ⟨?_, rfl⟩
  intro s keys h
  have main : ∀ cs ks, toKeysAux cs = .ok ks →
      ks.length = cs.length + cs.countP (fun c => c.isUpper) := by
    intro cs
    induction cs with
    | nil =>
      intro ks h2
      simp only [toKeysAux] at h2
      cases h2
      rfl
    | cons c cs ih =>
      intro ks h2
      obtain ⟨k, ks', hf, hr, hks⟩ := toKeysAux_cons_ok h2
      subst hks
      have hlen := ih ks' hr
      cases hu : c.isUpper with
      | true => simp [hu, List.countP_cons, hlen]; omega
      | false => simp [hu, List.countP_cons, hlen]; omega
  exact main s.data keys h

/-- Witness for C10's general part at the input `"Hi"`. -/
theorem decode_length_witness :
    [XK_Shift, XK_H, XK_I].length =
      ("Hi".data).length + ("Hi".data).countP (fun c => c.isUpper) :=
  decode_length.1 "Hi" [XK_Shift, XK_H, XK_I] rfl

end KeybdIR
